import Mathlib

/-!
Verification of the dependency-graph extraction core of the chromium-includes
repository (scripts/fetch-data.js). The definitions below are a shallow
embedding of that script: strings are lists of characters, the JS object and
Map used for in-degree counting and external-node bookkeeping are association
lists with first-binding update semantics, and the asynchronous fetch
collaborators are passed in as explicit functions returning Except values.
-/

namespace ChromiumIncludes

/-- An include directive as produced by parseIncludes: the captured path and
whether the opening delimiter was an angle bracket. -/
structure IncludeDirective where
  path : List Char
  isSystem : Bool
deriving DecidableEq

/-- The characters matched by the JavaScript regex class "backslash s"
(whitespace), restricted to the code points relevant here. -/
def isJsSpace (c : Char) : Bool :=
  c == ' ' || c == '\t' || c == '\n' || c == '\r' ||
  c == '\x0b' || c == '\x0c' || c == '\u00A0' || c == '\u1680' ||
  ('\u2000' ≤ c && c ≤ '\u200A') || c == '\u2028' || c == '\u2029' ||
  c == '\u202F' || c == '\u205F' || c == '\u3000' || c == '\uFEFF'

/-- A character admissible inside the captured path: the regex uses the
negated class excluding a double quote and a closing angle bracket. -/
def isIncludeBodyChar (c : Char) : Bool :=
  !(c == '"' || c == '>')

/-- The literal token the regex starts with. -/
def includeToken : List Char := "#include".data

/-- Consume an exact literal from the front of a character list, returning
the remainder on success. -/
def dropLit : List Char → List Char → Option (List Char)
  | [], s => some s
  | _ :: _, [] => none
  | l :: ls, c :: cs => if c = l then dropLit ls cs else none

/-- One attempted regex match at the current position, following the greedy
semantics of the pattern: the hash-include token, one or more whitespace
characters, an opening delimiter (quote or left angle), a nonempty greedy run
of path characters, and then one further character. Because the greedy run
stops exactly at the first quote or closing angle bracket, the final
character class of the regex is automatically satisfied by any character that
terminates the run, so its value is not inspected. Returns the directive and
the total number of characters the match consumed. -/
def tryMatchInclude (s : List Char) : Option (IncludeDirective × Nat) :=
  match dropLit includeToken s with
  | none => none
  | some s1 =>
    let w := (s1.takeWhile isJsSpace).length
    if w = 0 then none else
      match s1.drop w with
      | [] => none
      | op :: s3 =>
        if op == '"' || op == '<' then
          let body := s3.takeWhile isIncludeBodyChar
          if body.length = 0 then none else
            match s3.drop body.length with
            | [] => none
            | _ :: _ =>
              some (⟨body, op == '<'⟩, includeToken.length + w + 1 + body.length + 1)
        else none

/-- Matching as the claim reads it: the closing delimiter must be the one
paired with the opening delimiter (a quote closes a quote, a right angle
closes a left angle). -/
def tryMatchClaim (s : List Char) : Option (IncludeDirective × Nat) :=
  match dropLit includeToken s with
  | none => none
  | some s1 =>
    let w := (s1.takeWhile isJsSpace).length
    if w = 0 then none else
      match s1.drop w with
      | [] => none
      | op :: s3 =>
        if op == '"' || op == '<' then
          let body := s3.takeWhile isIncludeBodyChar
          if body.length = 0 then none else
            match s3.drop body.length with
            | [] => none
            | cl :: _ =>
              if cl == (if op == '<' then '>' else '"') then
                some (⟨body, op == '<'⟩, includeToken.length + w + 1 + body.length + 1)
              else none
        else none

/-- Matching as the amended claim reads: the closing delimiter is either a
quote or a right angle bracket, independently of the opening delimiter, and
it is checked explicitly. -/
def tryMatchAmended (s : List Char) : Option (IncludeDirective × Nat) :=
  match dropLit includeToken s with
  | none => none
  | some s1 =>
    let w := (s1.takeWhile isJsSpace).length
    if w = 0 then none else
      match s1.drop w with
      | [] => none
      | op :: s3 =>
        if op == '"' || op == '<' then
          let body := s3.takeWhile isIncludeBodyChar
          if body.length = 0 then none else
            match s3.drop body.length with
            | [] => none
            | cl :: _ =>
              if cl == '"' || cl == '>' then
                some (⟨body, op == '<'⟩, includeToken.length + w + 1 + body.length + 1)
              else none
        else none

/-- The single forward pass of a global regex scan: at each position attempt
a match; on success emit the directive and resume immediately after the
consumed text, otherwise advance by one character. The skip counter carries
how many characters of the current match remain to be stepped over. -/
def scanIncludes (tm : List Char → Option (IncludeDirective × Nat)) :
    List Char → Nat → List IncludeDirective
  | [], _ => []
  | _ :: cs, skip + 1 => scanIncludes tm cs skip
  | s@(_ :: cs), 0 =>
    match tm s with
    | some (d, n) => d :: scanIncludes tm cs (n - 1)
    | none => scanIncludes tm cs 0

/-- parseIncludes from scripts/fetch-data.js: run the global include regex
over the whole content and collect the directives in match order. -/
def parseIncludes (content : List Char) : List IncludeDirective :=
  scanIncludes tryMatchInclude content 0

/-- The parser the claim describes, with matching opening and closing
delimiters required. -/
def parseIncludesClaimSpec (content : List Char) : List IncludeDirective :=
  scanIncludes tryMatchClaim content 0

/-- The parser the amended claim describes, with the closing delimiter
allowed to be either a quote or a right angle bracket. -/
def parseIncludesAmendedSpec (content : List Char) : List IncludeDirective :=
  scanIncludes tryMatchAmended content 0

example : parseIncludes "#include \"a/b/c.h\"\n#include <vector>".data =
    [⟨"a/b/c.h".data, false⟩, ⟨"vector".data, true⟩] := by decide

example : parseIncludes "#include \"vector>".data = [⟨"vector".data, false⟩] := by decide

example : parseIncludesClaimSpec "#include \"vector>".data = [] := by decide

/-- A directory-listing entry as returned by the contents endpoint: a
basename, a repository-relative path, and a type tag (the strings file and
dir are the two relevant values). -/
structure Entry where
  name : List Char
  path : List Char
  type : List Char
deriving DecidableEq

/-- A graph node; the inDegree field is populated by the final mapping step
of analyzeDependencies, and is zero on the intermediate nodes. -/
structure GNode where
  id : List Char
  group : Nat
  val : Nat
  isExternal : Bool
  isSystem : Bool
  fullPath : List Char
  inDegree : Nat
deriving DecidableEq

/-- A directed edge: the source file includes the target. -/
structure Link where
  source : List Char
  target : List Char
deriving DecidableEq

/-- The value stored in the externalNodes map. -/
structure ExtInfo where
  fullPath : List Char
  isSystem : Bool
deriving DecidableEq

/-- An error raised by a fetch collaborator, carrying the HTTP status. -/
structure Err where
  status : Nat
deriving DecidableEq

/-- The graph assembled for one directory. -/
structure Graph where
  nodes : List GNode
  links : List Link
  leafNodes : List (List Char)
deriving DecidableEq

/-- The value returned by analyzeDependencies on success. -/
structure AnalysisResult where
  graph : Graph
  subDirs : List (List Char)
deriving DecidableEq

/-- A string-keyed map with insertion order, modelling both the plain JS
object used for in-degree counters and the JS Map used for external nodes:
assigning to an existing key updates the first binding in place, a new key is
appended at the end. -/
abbrev AMap (β : Type) : Type := List (List Char × β)

/-- Set a key in the map, updating in place if present, appending otherwise. -/
def mapSet {β : Type} : AMap β → List Char → β → AMap β
  | [], k, v => [(k, v)]
  | p :: m, k, v => if p.1 = k then (k, v) :: m else p :: mapSet m k v

/-- Look up the first binding of a key. -/
def mapFind? {β : Type} : AMap β → List Char → Option β
  | [], _ => none
  | p :: m, k => if p.1 = k then some p.2 else mapFind? m k

/-- Key membership, as Map.has or the in operator. -/
def mapHas {β : Type} (m : AMap β) (k : List Char) : Bool :=
  (mapFind? m k).isSome

/-- Lookup with a default, as the expression that reads a counter or zero. -/
def mapGetD {β : Type} (m : AMap β) (k : List Char) (d : β) : β :=
  (mapFind? m k).getD d

/-- Increment-or-initialize of a counter key, as both branches of the
in-degree update write it (on the internal branch the key is always already
present, so the plain increment of the source coincides with this). -/
def mapInc (m : AMap Nat) (k : List Char) : AMap Nat :=
  mapSet m k (mapGetD m k 0 + 1)

/-- The keys in insertion order, as Object.keys. -/
def mapKeys {β : Type} (m : AMap β) : List (List Char) :=
  m.map Prod.fst

/-- The final path segment of an include target: split on slashes and take
the last piece, with the empty string as the JS fallback. -/
def lastSegment (p : List Char) : List Char :=
  ((p.splitOn '/').getLast?).getD []

/-- Lexicographic comparison of strings by code point, the default JS array
sort order for strings. -/
def strLe : List Char → List Char → Bool
  | [], _ => true
  | _ :: _, [] => false
  | a :: as, b :: bs =>
    if a.toNat < b.toNat then true
    else if b.toNat < a.toNat then false
    else strLe as bs

/-- The comparison as a relation, for the sorting lemmas. -/
def strLeRel (a b : List Char) : Prop := strLe a b = true

instance : DecidableRel strLeRel := fun a b =>
  inferInstanceAs (Decidable (strLe a b = true))

/-- The sort of the subdirectory paths; any stable comparison sort agrees
with the JS engine sort on string arrays because the order is total and
antisymmetric. -/
def jsSortStrings (l : List (List Char)) : List (List Char) :=
  List.insertionSort strLeRel l

/-- Is a listing entry one of the recognized C or C++ source files. -/
def isCppFile (f : Entry) : Bool :=
  f.type == "file".data &&
    (".cc".data.isSuffixOf f.name || ".cpp".data.isSuffixOf f.name ||
     ".h".data.isSuffixOf f.name || ".hpp".data.isSuffixOf f.name)

/-- The state threaded through the include-processing loop. -/
structure BuildState where
  links : List Link
  inDegree : AMap Nat
  externalNodes : AMap ExtInfo
deriving DecidableEq

/-- Processing of one include directive of one file: compute the basename of
the target; if it names a sibling file record an edge and bump its counter,
otherwise record an edge, overwrite the external-node entry for the basename
and bump (or create) its counter. -/
def processInclude (internalFiles : List (List Char)) (srcName : List Char)
    (st : BuildState) (inc : IncludeDirective) : BuildState :=
  let incName := lastSegment inc.path
  if internalFiles.contains incName then
    { st with
      links := st.links ++ [⟨srcName, incName⟩],
      inDegree := mapInc st.inDegree incName }
  else
    { st with
      links := st.links ++ [⟨srcName, incName⟩],
      externalNodes := mapSet st.externalNodes incName ⟨inc.path, inc.isSystem⟩,
      inDegree := mapInc st.inDegree incName }

/-- Processing of one file: a failed content fetch is swallowed and leaves
the state untouched; a successful fetch feeds the parsed includes through
processInclude in order. -/
def processFile (fetch : List Char → Except Err (List Char))
    (internalFiles : List (List Char)) (st : BuildState) (file : Entry) : BuildState :=
  match fetch file.path with
  | .error _ => st
  | .ok content => (parseIncludes content).foldl (processInclude internalFiles file.name) st

/-- The filtered list of source files of the directory. -/
def cppFilesOf (files : List Entry) : List Entry :=
  files.filter isCppFile

/-- The names of the internal files, as the internalFiles set. -/
def internalNamesOf (files : List Entry) : List (List Char) :=
  (cppFilesOf files).map Entry.name

/-- The in-degree object after the initialization loop: every internal file
name bound to zero. -/
def initDeg (files : List Entry) : AMap Nat :=
  (cppFilesOf files).foldl (fun m f => mapSet m f.name 0) []

/-- The internal nodes pushed by the initialization loop. -/
def initialNodes (files : List Entry) : List GNode :=
  (cppFilesOf files).map (fun f => ⟨f.name, 1, 10, false, false, f.path, 0⟩)

/-- The external nodes materialized from the externalNodes map after the
main loop. -/
def externalNodeList (ext : AMap ExtInfo) : List GNode :=
  ext.map (fun p => ⟨p.1, 2, 8, true, p.2.isSystem, p.2.fullPath, 0⟩)

/-- The subdirectory paths: filter, project and sort. -/
def subDirsOf (files : List Entry) : List (List Char) :=
  jsSortStrings ((files.filter (fun f => f.type == "dir".data)).map Entry.path)

/-- The state after the whole main loop over the source files. -/
def buildState (files : List Entry) (fetch : List Char → Except Err (List Char)) :
    BuildState :=
  (cppFilesOf files).foldl (processFile fetch (internalNamesOf files))
    ⟨[], initDeg files, []⟩

/-- The successful analysis of a directory listing: the body of
analyzeDependencies after the listing fetch succeeded. -/
def analysisOf (files : List Entry) (fetch : List Char → Except Err (List Char)) :
    AnalysisResult :=
  let st := buildState files fetch
  let nodes := initialNodes files ++ externalNodeList st.externalNodes
  let leafNodes := (mapKeys st.inDegree).filter
    (fun name => (mapGetD st.inDegree name 0 == 0) && !(mapHas st.externalNodes name))
  let finalNodes := nodes.map (fun n => { n with inDegree := mapGetD st.inDegree n.id 0 })
  ⟨⟨finalNodes, st.links, leafNodes⟩, subDirsOf files⟩

/-- analyzeDependencies from scripts/fetch-data.js: a failed directory
listing of any kind is caught and turned into a null result; a successful
listing is analyzed with per-file fetch failures swallowed inside the loop. -/
def analyzeDependencies (listing : Except Err (List Entry))
    (fetch : List Char → Except Err (List Char)) : Option AnalysisResult :=
  match listing with
  | .error _ => none
  | .ok files => some (analysisOf files fetch)

/-- The target basename of one include occurrence. -/
def targOf (o : List Char × IncludeDirective) : List Char :=
  lastSegment o.2.path

/-- The edge one include occurrence records. -/
def mkLink (o : List Char × IncludeDirective) : Link :=
  ⟨o.1, targOf o⟩

/-- processInclude, uncurried over a source-name and directive pair. -/
def processOcc (intf : List (List Char)) (st : BuildState)
    (o : List Char × IncludeDirective) : BuildState :=
  processInclude intf o.1 st o.2

/-- The include occurrences one file contributes, tagged with its name. -/
def fileOccs (fetch : List Char → Except Err (List Char)) (file : Entry) :
    List (List Char × IncludeDirective) :=
  match fetch file.path with
  | .error _ => []
  | .ok content => (parseIncludes content).map (fun inc => (file.name, inc))

/-- All include occurrences of a file list, in processing order. -/
def allOccs (fetch : List Char → Except Err (List Char)) (files : List Entry) :
    List (List Char × IncludeDirective) :=
  (files.map (fileOccs fetch)).flatten

theorem mapFind?_mapSet_self {β : Type} (m : AMap β) (k : List Char) (v : β) :
    mapFind? (mapSet m k v) k = some v := by
  induction m with
  | nil => simp [mapSet, mapFind?]
  | cons p m ih =>
    by_cases h : p.1 = k
    · simp [mapSet, mapFind?, h]
    · simp [mapSet, mapFind?, h, ih]

theorem mapFind?_mapSet_ne {β : Type} (m : AMap β) (k k' : List Char) (v : β)
    (h : k' ≠ k) : mapFind? (mapSet m k v) k' = mapFind? m k' := by
  induction m with
  | nil => simp [mapSet, mapFind?, Ne.symm h]
  | cons p m ih =>
    by_cases hk : p.1 = k
    · subst hk
      simp [mapSet, mapFind?, Ne.symm h]
    · simp only [mapSet, hk, if_false, mapFind?]
      by_cases hk' : p.1 = k'
      · simp [hk']
      · simp [hk', ih]

theorem mapGetD_mapSet_self {β : Type} (m : AMap β) (k : List Char) (v d : β) :
    mapGetD (mapSet m k v) k d = v := by
  simp [mapGetD, mapFind?_mapSet_self]

theorem mapGetD_mapSet_ne {β : Type} (m : AMap β) (k k' : List Char) (v d : β)
    (h : k' ≠ k) : mapGetD (mapSet m k v) k' d = mapGetD m k' d := by
  simp [mapGetD, mapFind?_mapSet_ne _ _ _ _ h]

theorem mapGetD_mapInc_self (m : AMap Nat) (k : List Char) :
    mapGetD (mapInc m k) k 0 = mapGetD m k 0 + 1 := by
  simp [mapInc, mapGetD_mapSet_self]

theorem mapGetD_mapInc_ne (m : AMap Nat) (k k' : List Char) (h : k' ≠ k) :
    mapGetD (mapInc m k) k' 0 = mapGetD m k' 0 := by
  simp [mapInc, mapGetD_mapSet_ne _ _ _ _ _ h]

theorem mapHas_mapSet {β : Type} (m : AMap β) (k k' : List Char) (v : β) :
    mapHas (mapSet m k v) k' = (mapHas m k' || decide (k' = k)) := by
  by_cases h : k' = k
  · subst h
    simp [mapHas, mapFind?_mapSet_self]
  · simp [mapHas, mapFind?_mapSet_ne _ _ _ _ h, h]

theorem mapHas_mapInc (m : AMap Nat) (k k' : List Char) :
    mapHas (mapInc m k) k' = (mapHas m k' || decide (k' = k)) := by
  simp [mapInc, mapHas_mapSet]

theorem mapHas_iff_mem_keys {β : Type} (m : AMap β) (k : List Char) :
    mapHas m k = true ↔ k ∈ mapKeys m := by
  induction m with
  | nil => simp [mapHas, mapFind?, mapKeys]
  | cons p m ih =>
    simp only [mapHas, mapFind?, mapKeys, List.map_cons, List.mem_cons]
    by_cases h : p.1 = k
    · constructor
      · intro _
        exact Or.inl h.symm
      · intro _
        rw [if_pos h]
        rfl
    · rw [if_neg h]
      constructor
      · intro hh
        exact Or.inr (ih.mp hh)
      · intro hh
        rcases hh with hh | hh
        · exact absurd hh.symm h
        · exact ih.mpr hh

theorem mem_of_mapFind?_eq_some {β : Type} (m : AMap β) (k : List Char) (v : β)
    (h : mapFind? m k = some v) : (k, v) ∈ m := by
  induction m with
  | nil => simp [mapFind?] at h
  | cons p m ih =>
    by_cases hk : p.1 = k
    · cases p with
      | mk a b =>
        simp only at hk
        subst hk
        simp [mapFind?] at h
        subst h
        exact List.mem_cons_self _ _
    · simp only [mapFind?, hk, if_false] at h
      exact List.mem_cons_of_mem _ (ih h)

theorem contains_eq_mem_decide (l : List (List Char)) (a : List Char) :
    l.contains a = decide (a ∈ l) := by
  simp [List.contains]

theorem processOcc_links (intf : List (List Char)) (st : BuildState)
    (o : List Char × IncludeDirective) :
    (processOcc intf st o).links = st.links ++ [mkLink o] := by
  by_cases h : lastSegment o.2.path ∈ intf
  · simp [processOcc, processInclude, mkLink, targOf, h]
  · simp [processOcc, processInclude, mkLink, targOf, h]

theorem processOcc_inDegree (intf : List (List Char)) (st : BuildState)
    (o : List Char × IncludeDirective) :
    (processOcc intf st o).inDegree = mapInc st.inDegree (targOf o) := by
  by_cases h : lastSegment o.2.path ∈ intf
  · simp [processOcc, processInclude, targOf, h]
  · simp [processOcc, processInclude, targOf, h]

theorem processOcc_ext (intf : List (List Char)) (st : BuildState)
    (o : List Char × IncludeDirective) :
    (processOcc intf st o).externalNodes =
      if targOf o ∈ intf then st.externalNodes
      else mapSet st.externalNodes (targOf o) ⟨o.2.path, o.2.isSystem⟩ := by
  by_cases h : lastSegment o.2.path ∈ intf
  · simp [processOcc, processInclude, targOf, h]
  · simp [processOcc, processInclude, targOf, h]

theorem foldl_occs_links (intf : List (List Char))
    (occs : List (List Char × IncludeDirective)) (st : BuildState) :
    (occs.foldl (processOcc intf) st).links = st.links ++ occs.map mkLink := by
  induction occs generalizing st with
  | nil => simp
  | cons o os ih =>
    simp only [List.foldl_cons, List.map_cons]
    rw [ih, processOcc_links, List.append_assoc]
    rfl

theorem foldl_occs_getD (intf : List (List Char))
    (occs : List (List Char × IncludeDirective)) (st : BuildState) (name : List Char) :
    mapGetD (occs.foldl (processOcc intf) st).inDegree name 0 =
      mapGetD st.inDegree name 0 + occs.countP (fun o => decide (targOf o = name)) := by
  induction occs generalizing st with
  | nil => simp
  | cons o os ih =>
    simp only [List.foldl_cons, List.countP_cons]
    rw [ih]
    by_cases h : targOf o = name
    · subst h
      rw [processOcc_inDegree, mapGetD_mapInc_self]
      simp
      omega
    · rw [processOcc_inDegree, mapGetD_mapInc_ne _ _ _ (fun hh => h hh.symm)]
      simp [h]

theorem foldl_occs_hasDeg (intf : List (List Char))
    (occs : List (List Char × IncludeDirective)) (st : BuildState) (name : List Char) :
    mapHas (occs.foldl (processOcc intf) st).inDegree name =
      (mapHas st.inDegree name || occs.any (fun o => decide (targOf o = name))) := by
  induction occs generalizing st with
  | nil => simp
  | cons o os ih =>
    simp only [List.foldl_cons, List.any_cons]
    rw [ih, processOcc_inDegree, mapHas_mapInc]
    by_cases h : targOf o = name
    · simp [h]
    · simp [h, Ne.symm h]

theorem foldl_occs_hasExt (intf : List (List Char))
    (occs : List (List Char × IncludeDirective)) (st : BuildState) (name : List Char) :
    mapHas (occs.foldl (processOcc intf) st).externalNodes name =
      (mapHas st.externalNodes name ||
        (!decide (name ∈ intf) && occs.any (fun o => decide (targOf o = name)))) := by
  induction occs generalizing st with
  | nil => simp
  | cons o os ih =>
    simp only [List.foldl_cons, List.any_cons]
    rw [ih, processOcc_ext]
    by_cases h : targOf o = name
    · subst h
      by_cases hc : targOf o ∈ intf
      · simp [hc]
      · simp [hc, mapHas_mapSet]
    · by_cases hc : targOf o ∈ intf
      · simp [hc, h]
      · simp [hc, h, mapHas_mapSet, Ne.symm h]

theorem foldl_occs_find?Ext (intf : List (List Char))
    (occs : List (List Char × IncludeDirective)) (st : BuildState) (name : List Char)
    (hint : name ∉ intf) :
    mapFind? (occs.foldl (processOcc intf) st).externalNodes name =
      (((occs.filter (fun o => decide (targOf o = name))).getLast?).map
          (fun o => ExtInfo.mk o.2.path o.2.isSystem)).or
        (mapFind? st.externalNodes name) := by
  induction occs generalizing st with
  | nil => simp
  | cons o os ih =>
    simp only [List.foldl_cons]
    rw [ih]
    by_cases h : targOf o = name
    · have hfc : List.filter (fun o => decide (targOf o = name)) (o :: os) =
          o :: List.filter (fun o => decide (targOf o = name)) os := by
        simp [List.filter_cons, h]
      rw [hfc]
      cases hh : List.filter (fun o => decide (targOf o = name)) os with
      | nil =>
        have hF : mapFind? (processOcc intf st o).externalNodes name =
            some ⟨o.2.path, o.2.isSystem⟩ := by
          rw [processOcc_ext, h, if_neg hint, mapFind?_mapSet_self]
        rw [hF]
        simp
      | cons a l =>
        obtain ⟨z, hz⟩ := Option.isSome_iff_exists.mp
          (List.getLast?_isSome.mpr (List.cons_ne_nil a l))
        simp [hz]
    · have hfc : List.filter (fun o => decide (targOf o = name)) (o :: os) =
          List.filter (fun o => decide (targOf o = name)) os := by
        simp [List.filter_cons, h]
      rw [hfc]
      have hstep : mapFind? (processOcc intf st o).externalNodes name =
          mapFind? st.externalNodes name := by
        rw [processOcc_ext]
        by_cases hc : targOf o ∈ intf
        · rw [if_pos hc]
        · rw [if_neg hc, mapFind?_mapSet_ne _ _ _ _ (Ne.symm h)]
      rw [hstep]

theorem processFile_eq (fetch : List Char → Except Err (List Char))
    (intf : List (List Char)) (st : BuildState) (file : Entry) :
    processFile fetch intf st file = (fileOccs fetch file).foldl (processOcc intf) st := by
  unfold processFile fileOccs
  cases fetch file.path with
  | error e => rfl
  | ok content =>
    simp only [List.foldl_map]
    rfl

theorem foldl_files_eq (fetch : List Char → Except Err (List Char))
    (intf : List (List Char)) (files : List Entry) (st : BuildState) :
    files.foldl (processFile fetch intf) st =
      (allOccs fetch files).foldl (processOcc intf) st := by
  induction files generalizing st with
  | nil => simp [allOccs]
  | cons f fs ih =>
    simp only [List.foldl_cons, allOccs, List.map_cons, List.flatten_cons,
      List.foldl_append]
    rw [ih, processFile_eq]
    rfl

theorem buildState_eq (files : List Entry) (fetch : List Char → Except Err (List Char)) :
    buildState files fetch =
      (allOccs fetch (cppFilesOf files)).foldl (processOcc (internalNamesOf files))
        ⟨[], initDeg files, []⟩ := by
  unfold buildState
  rw [foldl_files_eq]

theorem mem_allOccs (fetch : List Char → Except Err (List Char)) (files : List Entry)
    (o : List Char × IncludeDirective) :
    o ∈ allOccs fetch files ↔ ∃ f ∈ files, o ∈ fileOccs fetch f := by
  unfold allOccs
  rw [List.mem_flatten]
  constructor
  · rintro ⟨l, hl, ho⟩
    rw [List.mem_map] at hl
    obtain ⟨f, hf, rfl⟩ := hl
    exact ⟨f, hf, ho⟩
  · rintro ⟨f, hf, ho⟩
    exact ⟨fileOccs fetch f, List.mem_map_of_mem _ hf, ho⟩

theorem fileOccs_shape (fetch : List Char → Except Err (List Char)) (f : Entry)
    (o : List Char × IncludeDirective) (h : o ∈ fileOccs fetch f) :
    o.1 = f.name ∧ ∃ content, fetch f.path = .ok content ∧ o.2 ∈ parseIncludes content := by
  unfold fileOccs at h
  cases hf : fetch f.path with
  | error e =>
    rw [hf] at h
    simp at h
  | ok content =>
    rw [hf] at h
    simp only [List.mem_map] at h
    obtain ⟨inc, hinc, rfl⟩ := h
    exact ⟨rfl, content, rfl, hinc⟩

theorem mem_fileOccs (fetch : List Char → Except Err (List Char)) (f : Entry)
    (content : List Char) (inc : IncludeDirective)
    (hok : fetch f.path = .ok content) (hinc : inc ∈ parseIncludes content) :
    (f.name, inc) ∈ fileOccs fetch f := by
  unfold fileOccs
  rw [hok]
  exact List.mem_map_of_mem _ hinc

theorem fileOccs_empty_of_error (fetch : List Char → Except Err (List Char)) (f : Entry)
    (e : Err) (h : fetch f.path = .error e) : fileOccs fetch f = [] := by
  unfold fileOccs
  rw [h]

theorem mapGetD_initDeg (files : List Entry) (name : List Char) :
    mapGetD (initDeg files) name 0 = 0 := by
  unfold initDeg
  have main : ∀ (l : List Entry) (m : AMap Nat), (∀ n, mapGetD m n 0 = 0) →
      ∀ n, mapGetD (l.foldl (fun m f => mapSet m f.name 0) m) n 0 = 0 := by
    intro l
    induction l with
    | nil => intro m hm n; exact hm n
    | cons f fs ih =>
      intro m hm n
      simp only [List.foldl_cons]
      refine ih _ ?_ n
      intro n'
      by_cases h : n' = f.name
      · subst h
        rw [mapGetD_mapSet_self]
      · rw [mapGetD_mapSet_ne _ _ _ _ _ h]
        exact hm n'
  refine main _ [] ?_ name
  intro n
  rfl

theorem mapHas_initDeg (files : List Entry) (name : List Char) :
    mapHas (initDeg files) name = true ↔ name ∈ internalNamesOf files := by
  unfold initDeg internalNamesOf
  have main : ∀ (l : List Entry) (m : AMap Nat) (n : List Char),
      mapHas (l.foldl (fun m f => mapSet m f.name 0) m) n = true ↔
        (mapHas m n = true ∨ n ∈ l.map Entry.name) := by
    intro l
    induction l with
    | nil => intro m n; simp
    | cons f fs ih =>
      intro m n
      simp only [List.foldl_cons, List.map_cons, List.mem_cons]
      rw [ih]
      rw [mapHas_mapSet]
      constructor
      · intro hh
        rcases hh with hh | hh
        · rcases Bool.or_eq_true_iff.mp hh with hh | hh
          · exact Or.inl hh
          · exact Or.inr (Or.inl (of_decide_eq_true hh))
        · exact Or.inr (Or.inr hh)
      · intro hh
        rcases hh with hh | hh | hh
        · exact Or.inl (Bool.or_eq_true_iff.mpr (Or.inl hh))
        · exact Or.inl (Bool.or_eq_true_iff.mpr (Or.inr (decide_eq_true hh)))
        · exact Or.inr hh
  rw [main (cppFilesOf files) [] name]
  simp [mapHas, mapFind?]

/-- All include occurrences a directory analysis processes. -/
def occsOf (files : List Entry) (fetch : List Char → Except Err (List Char)) :
    List (List Char × IncludeDirective) :=
  allOccs fetch (cppFilesOf files)

/-- The final in-degree counter of a name. -/
def degOf (files : List Entry) (fetch : List Char → Except Err (List Char))
    (name : List Char) : Nat :=
  mapGetD (buildState files fetch).inDegree name 0

theorem degOf_eq_count (files : List Entry) (fetch : List Char → Except Err (List Char))
    (name : List Char) :
    degOf files fetch name =
      (occsOf files fetch).countP (fun o => decide (targOf o = name)) := by
  unfold degOf occsOf
  rw [buildState_eq, foldl_occs_getD]
  simp [mapGetD_initDeg]

theorem links_eq_map (files : List Entry) (fetch : List Char → Except Err (List Char)) :
    (buildState files fetch).links = (occsOf files fetch).map mkLink := by
  unfold occsOf
  rw [buildState_eq, foldl_occs_links]
  simp

theorem extHas_iff (files : List Entry) (fetch : List Char → Except Err (List Char))
    (name : List Char) :
    mapHas (buildState files fetch).externalNodes name = true ↔
      (name ∉ internalNamesOf files ∧ ∃ o ∈ occsOf files fetch, targOf o = name) := by
  unfold occsOf
  rw [buildState_eq, foldl_occs_hasExt]
  simp only [mapHas, mapFind?, Option.isSome_none, Bool.false_or,
    Bool.and_eq_true, Bool.not_eq_true', decide_eq_false_iff_not, List.any_eq_true,
    decide_eq_true_eq]

theorem degKey_iff (files : List Entry) (fetch : List Char → Except Err (List Char))
    (name : List Char) :
    name ∈ mapKeys (buildState files fetch).inDegree ↔
      (name ∈ internalNamesOf files ∨ ∃ o ∈ occsOf files fetch, targOf o = name) := by
  unfold occsOf
  rw [← mapHas_iff_mem_keys, buildState_eq, foldl_occs_hasDeg]
  simp only [Bool.or_eq_true, List.any_eq_true, decide_eq_true_eq]
  rw [mapHas_initDeg]

theorem extFind_lastWins (files : List Entry) (fetch : List Char → Except Err (List Char))
    (name : List Char) (hint : name ∉ internalNamesOf files)
    (o : List Char × IncludeDirective)
    (hlast : ((occsOf files fetch).filter (fun o => decide (targOf o = name))).getLast? =
      some o) :
    mapFind? (buildState files fetch).externalNodes name =
      some ⟨o.2.path, o.2.isSystem⟩ := by
  unfold occsOf at hlast
  rw [buildState_eq, foldl_occs_find?Ext _ _ _ _ hint, hlast]
  rfl

theorem analysisOf_links (files : List Entry) (fetch : List Char → Except Err (List Char)) :
    (analysisOf files fetch).graph.links = (buildState files fetch).links := rfl

theorem analysisOf_subDirs (files : List Entry)
    (fetch : List Char → Except Err (List Char)) :
    (analysisOf files fetch).subDirs = subDirsOf files := rfl

theorem mem_leaf_iff (files : List Entry) (fetch : List Char → Except Err (List Char))
    (name : List Char) :
    name ∈ (analysisOf files fetch).graph.leafNodes ↔
      (name ∈ mapKeys (buildState files fetch).inDegree ∧ degOf files fetch name = 0 ∧
        mapHas (buildState files fetch).externalNodes name = false) := by
  show name ∈ (mapKeys (buildState files fetch).inDegree).filter _ ↔ _
  rw [List.mem_filter]
  unfold degOf
  simp only [Bool.and_eq_true, beq_iff_eq, Bool.not_eq_true']

theorem mem_nodes_iff (files : List Entry) (fetch : List Char → Except Err (List Char))
    (n : GNode) :
    n ∈ (analysisOf files fetch).graph.nodes ↔
      ((∃ f ∈ cppFilesOf files,
          n = ⟨f.name, 1, 10, false, false, f.path, degOf files fetch f.name⟩) ∨
        (∃ p ∈ (buildState files fetch).externalNodes,
          n = ⟨p.1, 2, 8, true, p.2.isSystem, p.2.fullPath, degOf files fetch p.1⟩)) := by
  show n ∈ (initialNodes files ++ externalNodeList (buildState files fetch).externalNodes).map
      (fun n => { n with inDegree := mapGetD (buildState files fetch).inDegree n.id 0 }) ↔ _
  rw [List.mem_map]
  constructor
  · rintro ⟨n0, hn0, rfl⟩
    rw [List.mem_append] at hn0
    rcases hn0 with hn0 | hn0
    · unfold initialNodes at hn0
      rw [List.mem_map] at hn0
      obtain ⟨f, hf, rfl⟩ := hn0
      exact Or.inl ⟨f, hf, rfl⟩
    · unfold externalNodeList at hn0
      rw [List.mem_map] at hn0
      obtain ⟨p, hp, rfl⟩ := hn0
      exact Or.inr ⟨p, hp, rfl⟩
  · rintro (⟨f, hf, rfl⟩ | ⟨p, hp, rfl⟩)
    · refine ⟨⟨f.name, 1, 10, false, false, f.path, 0⟩, ?_, rfl⟩
      rw [List.mem_append]
      exact Or.inl (List.mem_map_of_mem _ hf)
    · refine ⟨⟨p.1, 2, 8, true, p.2.isSystem, p.2.fullPath, 0⟩, ?_, rfl⟩
      rw [List.mem_append]
      exact Or.inr (List.mem_map_of_mem _ hp)

theorem strLe_total : ∀ a b : List Char, strLe a b = true ∨ strLe b a = true := by
  intro a
  induction a with
  | nil => intro b; left; rfl
  | cons x xs ih =>
    intro b
    cases b with
    | nil => right; rfl
    | cons y ys =>
      simp only [strLe]
      rcases Nat.lt_trichotomy x.toNat y.toNat with h | h | h
      · left
        rw [if_pos h]
      · rw [if_neg (by omega), if_neg (by omega), if_neg (by omega), if_neg (by omega)]
        exact ih ys
      · right
        rw [if_pos h]

theorem strLe_trans :
    ∀ a b c : List Char, strLe a b = true → strLe b c = true → strLe a c = true := by
  intro a
  induction a with
  | nil => intro b c _ _; rfl
  | cons x xs ih =>
    intro b c hab hbc
    cases b with
    | nil => simp [strLe] at hab
    | cons y ys =>
      cases c with
      | nil => simp [strLe] at hbc
      | cons z zs =>
        simp only [strLe] at hab hbc ⊢
        rcases Nat.lt_trichotomy x.toNat y.toNat with h1 | h1 | h1 <;>
          rcases Nat.lt_trichotomy y.toNat z.toNat with h2 | h2 | h2
        · rw [if_pos (by omega)]
        · rw [if_pos (by omega)]
        · rw [if_neg (by omega), if_pos (by omega)] at hbc
          exact absurd hbc (by simp)
        · rw [if_pos (by omega)]
        · rw [if_neg (by omega), if_neg (by omega)] at hab
          rw [if_neg (by omega), if_neg (by omega)] at hbc
          rw [if_neg (by omega), if_neg (by omega)]
          exact ih ys zs hab hbc
        · rw [if_neg (by omega), if_pos (by omega)] at hbc
          exact absurd hbc (by simp)
        · rw [if_neg (by omega), if_pos (by omega)] at hab
          exact absurd hab (by simp)
        · rw [if_neg (by omega), if_pos (by omega)] at hab
          exact absurd hab (by simp)
        · rw [if_neg (by omega), if_pos (by omega)] at hab
          exact absurd hab (by simp)

instance : IsTotal (List Char) strLeRel :=
  ⟨fun a b => strLe_total a b⟩

instance : IsTrans (List Char) strLeRel :=
  ⟨fun a b c hab hbc => strLe_trans a b c hab hbc⟩

theorem subDirsOf_sorted (files : List Entry) :
    List.Sorted strLeRel (subDirsOf files) :=
  List.sorted_insertionSort strLeRel _

theorem subDirsOf_perm (files : List Entry) :
    (subDirsOf files).Perm ((files.filter (fun f => f.type == "dir".data)).map Entry.path) :=
  List.perm_insertionSort strLeRel _

theorem head_drop_takeWhile_not (p : Char → Bool) :
    ∀ (l : List Char) (c : Char) (cs : List Char),
      l.drop (l.takeWhile p).length = c :: cs → p c = false := by
  intro l
  induction l with
  | nil => intro c cs h; simp at h
  | cons a l ih =>
    intro c cs h
    by_cases hp : p a = true
    · rw [List.takeWhile_cons_of_pos hp] at h
      simp only [List.length_cons, List.drop_succ_cons] at h
      exact ih c cs h
    · rw [List.takeWhile_cons_of_neg hp] at h
      simp only [List.length_nil, List.drop_zero] at h
      cases h
      exact Bool.not_eq_true _ ▸ hp

theorem tryMatchInclude_eq_amended (s : List Char) :
    tryMatchInclude s = tryMatchAmended s := by
  unfold tryMatchInclude tryMatchAmended
  cases dropLit includeToken s with
  | none => rfl
  | some s1 =>
    by_cases hw : (s1.takeWhile isJsSpace).length = 0
    · simp [hw]
    · simp only [if_neg hw]
      cases s1.drop (s1.takeWhile isJsSpace).length with
      | nil => rfl
      | cons op s3 =>
        by_cases hop : (op == '"' || op == '<') = true
        · simp only [hop, if_true]
          by_cases hb : (s3.takeWhile isIncludeBodyChar).length = 0
          · simp [hb]
          · simp only [if_neg hb]
            cases hdrop : s3.drop (s3.takeWhile isIncludeBodyChar).length with
            | nil => rfl
            | cons cl s5 =>
              have hcl : isIncludeBodyChar cl = false :=
                head_drop_takeWhile_not _ s3 cl s5 hdrop
              have hcl2 : (cl == '"' || cl == '>') = true := by
                unfold isIncludeBodyChar at hcl
                cases hq : (cl == '"' || cl == '>') with
                | true => rfl
                | false =>
                  rw [hq] at hcl
                  simp at hcl
              simp [hcl2]
        · simp [hop]

theorem scanIncludes_congr (t1 t2 : List Char → Option (IncludeDirective × Nat))
    (h : ∀ s, t1 s = t2 s) :
    ∀ (s : List Char) (skip : Nat), scanIncludes t1 s skip = scanIncludes t2 s skip := by
  intro s
  induction s with
  | nil => intro skip; rfl
  | cons c cs ih =>
    intro skip
    cases skip with
    | succ k => exact ih k
    | zero =>
      simp only [scanIncludes, h (c :: cs)]
      cases t2 (c :: cs) with
      | none => exact ih 0
      | some dn =>
        cases dn with
        | mk d n => simp only [ih]

theorem analysis_some_inv (files : List Entry)
    (fetch : List Char → Except Err (List Char)) (res : AnalysisResult)
    (h : analyzeDependencies (.ok files) fetch = some res) :
    res = analysisOf files fetch := by
  have h2 : some (analysisOf files fetch) = some res := h
  exact (Option.some_inj.mp h2).symm

theorem mem_internalNames (files : List Entry) (name : List Char) :
    name ∈ internalNamesOf files ↔ ∃ f ∈ cppFilesOf files, f.name = name := by
  unfold internalNamesOf
  rw [List.mem_map]

theorem extHas_of_mem (st : BuildState) (p : List Char × ExtInfo)
    (hp : p ∈ st.externalNodes) : mapHas st.externalNodes p.1 = true := by
  rw [mapHas_iff_mem_keys]
  exact List.mem_map_of_mem Prod.fst hp

/-- C1: for every directory analysis, the leafNodes list contains exactly
the ids of the internal nodes whose computed inDegree is zero, and no
external node ever appears in leafNodes. -/
theorem claim1_leafNodes_exactly_internal_inDegree_zero
    (files : List Entry) (fetch : List Char → Except Err (List Char))
    (res : AnalysisResult) (h : analyzeDependencies (.ok files) fetch = some res)
    (name : List Char) :
    (name ∈ res.graph.leafNodes ↔
      ∃ n ∈ res.graph.nodes, n.id = name ∧ n.isExternal = false ∧ n.inDegree = 0) ∧
    (∀ n ∈ res.graph.nodes, n.isExternal = true → n.id ∉ res.graph.leafNodes) := by
  rw [analysis_some_inv files fetch res h]
  constructor
  · constructor
    · intro hleaf
      obtain ⟨hkey, hdeg, hext⟩ := (mem_leaf_iff files fetch name).mp hleaf
      have hinternal : name ∈ internalNamesOf files := by
        rcases (degKey_iff files fetch name).mp hkey with hi | ⟨o, ho, hto⟩
        · exact hi
        · by_cases hi : name ∈ internalNamesOf files
          · exact hi
          · have := (extHas_iff files fetch name).mpr ⟨hi, o, ho, hto⟩
            rw [hext] at this
            exact absurd this (by simp)
      obtain ⟨f, hf, hfname⟩ := (mem_internalNames files name).mp hinternal
      refine ⟨⟨f.name, 1, 10, false, false, f.path, degOf files fetch f.name⟩,
        (mem_nodes_iff files fetch _).mpr (Or.inl ⟨f, hf, rfl⟩), hfname, rfl, ?_⟩
      show degOf files fetch f.name = 0
      rw [hfname]
      exact hdeg
    · rintro ⟨n, hn, hid, hexf, hdeg0⟩
      rcases (mem_nodes_iff files fetch n).mp hn with ⟨f, hf, rfl⟩ | ⟨p, hp, rfl⟩
      · simp only at hid hdeg0
        rw [mem_leaf_iff]
        refine ⟨?_, ?_, ?_⟩
        · rw [degKey_iff]
          exact Or.inl (by
            rw [← hid]
            exact (mem_internalNames files f.name).mpr ⟨f, hf, rfl⟩)
        · rw [← hid]
          exact hdeg0
        · cases hb : mapHas (buildState files fetch).externalNodes name with
          | false => rfl
          | true =>
            obtain ⟨hni, _⟩ := (extHas_iff files fetch name).mp hb
            exact absurd (by
              rw [← hid]
              exact (mem_internalNames files f.name).mpr ⟨f, hf, rfl⟩) hni
      · simp at hexf
  · rintro n hn hext1 hleaf
    obtain ⟨hkey, hdeg, hextfalse⟩ := (mem_leaf_iff files fetch n.id).mp hleaf
    rcases (mem_nodes_iff files fetch n).mp hn with ⟨f, hf, rfl⟩ | ⟨p, hp, rfl⟩
    · simp at hext1
    · have hhas := extHas_of_mem (buildState files fetch) p hp
      simp only at hextfalse
      rw [hhas] at hextfalse
      exact absurd hextfalse (by simp)

/-- C2: in every produced graph the edge list has exactly one edge per
processed include occurrence, with no deduplication, and each node's
inDegree equals the number of edges whose target is that node's id. -/
theorem claim2_inDegree_counts_edges
    (files : List Entry) (fetch : List Char → Except Err (List Char))
    (res : AnalysisResult) (h : analyzeDependencies (.ok files) fetch = some res)
    (n : GNode) (hn : n ∈ res.graph.nodes) :
    n.inDegree = res.graph.links.countP (fun l => decide (l.target = n.id)) ∧
    res.graph.links = (occsOf files fetch).map mkLink := by
  rw [analysis_some_inv files fetch res h] at hn ⊢
  have hlinks : (analysisOf files fetch).graph.links = (occsOf files fetch).map mkLink := by
    rw [analysisOf_links, links_eq_map]
  refine ⟨?_, hlinks⟩
  rw [hlinks, List.countP_map]
  have hcount : ∀ name : List Char,
      degOf files fetch name =
        (occsOf files fetch).countP ((fun l => decide (l.target = name)) ∘ mkLink) := by
    intro name
    rw [degOf_eq_count]
    rfl
  rcases (mem_nodes_iff files fetch n).mp hn with ⟨f, hf, rfl⟩ | ⟨p, hp, rfl⟩
  · exact hcount f.name
  · exact hcount p.1

/-- C3: every edge of every produced graph has both its source id and its
target id among the ids of the produced node list. -/
theorem claim3_edge_endpoints_present
    (files : List Entry) (fetch : List Char → Except Err (List Char))
    (res : AnalysisResult) (h : analyzeDependencies (.ok files) fetch = some res)
    (l : Link) (hl : l ∈ res.graph.links) :
    (∃ n ∈ res.graph.nodes, n.id = l.source) ∧
    (∃ n ∈ res.graph.nodes, n.id = l.target) := by
  rw [analysis_some_inv files fetch res h] at hl ⊢
  rw [analysisOf_links, links_eq_map] at hl
  obtain ⟨o, ho, rfl⟩ := List.mem_map.mp hl
  obtain ⟨f, hf, hof⟩ := (mem_allOccs fetch (cppFilesOf files) o).mp ho
  obtain ⟨hsrc, _⟩ := fileOccs_shape fetch f o hof
  constructor
  · refine ⟨⟨f.name, 1, 10, false, false, f.path, degOf files fetch f.name⟩,
      (mem_nodes_iff files fetch _).mpr (Or.inl ⟨f, hf, rfl⟩), ?_⟩
    exact hsrc.symm
  · by_cases hi : targOf o ∈ internalNamesOf files
    · obtain ⟨g, hg, hgname⟩ := (mem_internalNames files (targOf o)).mp hi
      exact ⟨⟨g.name, 1, 10, false, false, g.path, degOf files fetch g.name⟩,
        (mem_nodes_iff files fetch _).mpr (Or.inl ⟨g, hg, rfl⟩), hgname⟩
    · have hhas := (extHas_iff files fetch (targOf o)).mpr ⟨hi, o, ho, rfl⟩
      rw [mapHas_iff_mem_keys] at hhas
      obtain ⟨p, hp, hpfst⟩ := List.mem_map.mp hhas
      exact ⟨⟨p.1, 2, 8, true, p.2.isSystem, p.2.fullPath, degOf files fetch p.1⟩,
        (mem_nodes_iff files fetch _).mpr (Or.inr ⟨p, hp, rfl⟩), hpfst⟩

/-- C10: every external node of every produced graph has inDegree at least
one, because an external node is created only by a processed include
occurrence that also increments its counter. -/
theorem claim10_external_nodes_included_at_least_once
    (files : List Entry) (fetch : List Char → Except Err (List Char))
    (res : AnalysisResult) (h : analyzeDependencies (.ok files) fetch = some res)
    (n : GNode) (hn : n ∈ res.graph.nodes) (hext : n.isExternal = true) :
    1 ≤ n.inDegree := by
  rw [analysis_some_inv files fetch res h] at hn
  rcases (mem_nodes_iff files fetch n).mp hn with ⟨f, hf, rfl⟩ | ⟨p, hp, rfl⟩
  · simp at hext
  · show 1 ≤ degOf files fetch p.1
    have hhas := extHas_of_mem (buildState files fetch) p hp
    obtain ⟨_, o, ho, hto⟩ := (extHas_iff files fetch p.1).mp hhas
    rw [degOf_eq_count]
    have : 0 < (occsOf files fetch).countP (fun o => decide (targOf o = p.1)) :=
      List.countP_pos_iff.mpr ⟨o, ho, by simpa using hto⟩
    omega

/-- C9: a listed file that includes itself by its own basename produces a
self-loop edge, has its inDegree incremented by that occurrence, and is
therefore absent from leafNodes. -/
theorem claim9_self_include_self_loop
    (files : List Entry) (fetch : List Char → Except Err (List Char))
    (f : Entry) (content : List Char) (inc : IncludeDirective) (res : AnalysisResult)
    (hf : f ∈ files) (hcpp : isCppFile f = true)
    (hok : fetch f.path = .ok content)
    (hinc : inc ∈ parseIncludes content)
    (hself : lastSegment inc.path = f.name)
    (h : analyzeDependencies (.ok files) fetch = some res) :
    (⟨f.name, f.name⟩ : Link) ∈ res.graph.links ∧
    (∃ n ∈ res.graph.nodes, n.id = f.name ∧ n.isExternal = false) ∧
    (∀ n ∈ res.graph.nodes, n.id = f.name → 1 ≤ n.inDegree) ∧
    f.name ∉ res.graph.leafNodes := by
  rw [analysis_some_inv files fetch res h]
  have hfc : f ∈ cppFilesOf files := List.mem_filter.mpr ⟨hf, hcpp⟩
  have hocc : (f.name, inc) ∈ occsOf files fetch :=
    (mem_allOccs fetch (cppFilesOf files) _).mpr
      ⟨f, hfc, mem_fileOccs fetch f content inc hok hinc⟩
  have htarg : targOf (f.name, inc) = f.name := hself
  have hdegpos : 1 ≤ degOf files fetch f.name := by
    rw [degOf_eq_count]
    have : 0 < (occsOf files fetch).countP (fun o => decide (targOf o = f.name)) :=
      List.countP_pos_iff.mpr ⟨(f.name, inc), hocc, by simpa using htarg⟩
    omega
  refine ⟨?_, ?_, ?_, ?_⟩
  · rw [analysisOf_links, links_eq_map]
    have : mkLink (f.name, inc) = ⟨f.name, f.name⟩ := by
      unfold mkLink
      rw [htarg]
    rw [← this]
    exact List.mem_map_of_mem mkLink hocc
  · exact ⟨⟨f.name, 1, 10, false, false, f.path, degOf files fetch f.name⟩,
      (mem_nodes_iff files fetch _).mpr (Or.inl ⟨f, hfc, rfl⟩), rfl, rfl⟩
  · intro n hn hid
    rcases (mem_nodes_iff files fetch n).mp hn with ⟨g, hg, rfl⟩ | ⟨p, hp, rfl⟩
    · simp only at hid ⊢
      show 1 ≤ degOf files fetch g.name
      rw [hid]
      exact hdegpos
    · simp only at hid ⊢
      show 1 ≤ degOf files fetch p.1
      rw [hid]
      exact hdegpos
  · intro hleaf
    obtain ⟨_, hdeg, _⟩ := (mem_leaf_iff files fetch f.name).mp hleaf
    omega

/-- C6: a file whose content fetch fails still appears as an internal node,
contributes no outgoing edges, and the directory analysis still returns a
result for the remaining subset. -/
theorem claim6_fetch_failure_degrades_gracefully
    (files : List Entry) (fetch : List Char → Except Err (List Char))
    (f : Entry) (e : Err)
    (hf : f ∈ files) (hcpp : isCppFile f = true)
    (hfail : fetch f.path = .error e)
    (hnodup : (internalNamesOf files).Nodup) :
    ∃ res, analyzeDependencies (.ok files) fetch = some res ∧
      (∃ n ∈ res.graph.nodes, n.id = f.name ∧ n.isExternal = false ∧
        n.inDegree = res.graph.links.countP (fun l => decide (l.target = f.name))) ∧
      (∀ l ∈ res.graph.links, l.source ≠ f.name) := by
  refine ⟨analysisOf files fetch, rfl, ?_, ?_⟩
  have hfc : f ∈ cppFilesOf files := List.mem_filter.mpr ⟨hf, hcpp⟩
  · refine ⟨⟨f.name, 1, 10, false, false, f.path, degOf files fetch f.name⟩,
      (mem_nodes_iff files fetch _).mpr
        (Or.inl ⟨f, List.mem_filter.mpr ⟨hf, hcpp⟩, rfl⟩), rfl, rfl, ?_⟩
    show degOf files fetch f.name = _
    rw [analysisOf_links, links_eq_map, List.countP_map, degOf_eq_count]
    rfl
  · intro l hl
    rw [analysisOf_links, links_eq_map] at hl
    obtain ⟨o, ho, rfl⟩ := List.mem_map.mp hl
    obtain ⟨g, hg, hog⟩ := (mem_allOccs fetch (cppFilesOf files) o).mp ho
    obtain ⟨hsrc, content, hokg, _⟩ := fileOccs_shape fetch g o hog
    show o.1 ≠ f.name
    rw [hsrc]
    intro hgf
    have hnodup2 : ((cppFilesOf files).map Entry.name).Nodup := hnodup
    have hgeqf : g = f :=
      List.inj_on_of_nodup_map hnodup2 hg (List.mem_filter.mpr ⟨hf, hcpp⟩) hgf
    rw [hgeqf] at hokg
    rw [hfail] at hokg
    exact Except.noConfusion hokg

/-- C4 (amended): the single external node for a basename carries the
isSystemInclude and fullPath of the last processed directive that resolved
to that basename; each occurrence overwrites the entry while only one node
is materialized. -/
theorem claim4_external_node_last_directive_wins
    (files : List Entry) (fetch : List Char → Except Err (List Char))
    (res : AnalysisResult) (h : analyzeDependencies (.ok files) fetch = some res)
    (name : List Char) (hint : name ∉ internalNamesOf files)
    (o : List Char × IncludeDirective)
    (hlast : ((occsOf files fetch).filter
      (fun o => decide (targOf o = name))).getLast? = some o) :
    ∃ n ∈ res.graph.nodes, n.id = name ∧ n.isExternal = true ∧
      n.isSystem = o.2.isSystem ∧ n.fullPath = o.2.path := by
  rw [analysis_some_inv files fetch res h]
  have hfind := extFind_lastWins files fetch name hint o hlast
  have hmem := mem_of_mapFind?_eq_some _ _ _ hfind
  exact ⟨⟨name, 2, 8, true, o.2.isSystem, o.2.path, degOf files fetch name⟩,
    (mem_nodes_iff files fetch _).mpr (Or.inr ⟨(name, ⟨o.2.path, o.2.isSystem⟩), hmem, rfl⟩),
    rfl, rfl, rfl, rfl⟩

/-- C7 (amended): no error is propagated out of the per-directory analysis:
a listing failure of any status class, rate-limit ones included, is
swallowed into a null per-directory result, and with a successful listing
the analysis always returns a result no matter what the content fetches
raise. -/
theorem claim7_errors_swallowed :
    (∀ (e : Err) (fetch : List Char → Except Err (List Char)),
      analyzeDependencies (.error e) fetch = none) ∧
    (∀ (files : List Entry) (fetch : List Char → Except Err (List Char)),
      analyzeDependencies (.ok files) fetch = some (analysisOf files fetch)) :=
  ⟨fun _ _ => rfl, fun _ _ => rfl⟩

/-- C8 (amended): the subdirectory list returned alongside the graph is
sorted lexicographically, but duplicate directory entries in the listing
are kept, one per occurrence. -/
theorem claim8_subDirs_sorted_duplicates_kept
    (files : List Entry) (fetch : List Char → Except Err (List Char))
    (res : AnalysisResult) (h : analyzeDependencies (.ok files) fetch = some res) :
    List.Sorted strLeRel res.subDirs ∧
    res.subDirs.Perm ((files.filter (fun f => f.type == "dir".data)).map Entry.path) := by
  rw [analysis_some_inv files fetch res h, analysisOf_subDirs]
  exact ⟨subDirsOf_sorted files, subDirsOf_perm files⟩

/-- C5 (amended): the parser reports exactly the occurrences of the
hash-include token followed by whitespace, an opening delimiter that is a
quote or a left angle bracket, a nonempty path free of quotes and right
angle brackets, and a closing delimiter that is a quote or a right angle
bracket independently of the opener, in a single forward pass, with
isSystemInclude true exactly when the opening delimiter was the angle
bracket. -/
theorem claim5_parser_matches_amended_spec (content : List Char) :
    parseIncludes content = parseIncludesAmendedSpec content :=
  scanIncludes_congr tryMatchInclude tryMatchAmended tryMatchInclude_eq_amended content 0

/-- A concrete listing entry for a source file, used by the witnesses. -/
def wFileX : Entry := ⟨"x.cc".data, "base/x.cc".data, "file".data⟩

/-- A concrete listing entry for a header file, used by the witnesses. -/
def wFileY : Entry := ⟨"y.h".data, "base/y.h".data, "file".data⟩

/-- A concrete fetch collaborator: the source file includes the sibling
header and a system header; the header is empty. -/
def wFetch1 : List Char → Except Err (List Char) := fun p =>
  if p = "base/x.cc".data then .ok "#include \"y.h\"\n#include <memory>".data
  else .ok []

/-- A concrete fetch collaborator failing on the source file with a server
error and otherwise serving a file that includes the failing file. -/
def wFetchFail : List Char → Except Err (List Char) := fun p =>
  if p = "base/x.cc".data then .error ⟨500⟩
  else .ok "#include \"x.cc\"".data

/-- A concrete header that includes itself. -/
def wSelf : Entry := ⟨"self.h".data, "base/self.h".data, "file".data⟩

/-- The fetch collaborator serving the self-including header. -/
def wFetchSelf : List Char → Except Err (List Char) :=
  fun _ => .ok "#include \"self.h\"".data

/-- A concrete source file whose includes resolve twice to the same
external basename with different delimiters and paths. -/
def c4File : Entry := ⟨"a.cc".data, "base/a.cc".data, "file".data⟩

/-- The fetch collaborator for the duplicate-external-basename fixture. -/
def c4Fetch : List Char → Except Err (List Char) :=
  fun _ => .ok "#include \"sub/z.h\"\n#include <z.h>".data

/-- A concrete directory entry, duplicated in the listing fixture of the
subdirectory claims. -/
def c8d1 : Entry := ⟨"sub".data, "base/sub".data, "dir".data⟩

/-- Witness for C1: the concrete two-file directory, checked at the id of
the file nobody includes. -/
theorem claim1_witness :
    ("x.cc".data ∈ (analysisOf [wFileX, wFileY] wFetch1).graph.leafNodes ↔
      ∃ n ∈ (analysisOf [wFileX, wFileY] wFetch1).graph.nodes,
        n.id = "x.cc".data ∧ n.isExternal = false ∧ n.inDegree = 0) ∧
    (∀ n ∈ (analysisOf [wFileX, wFileY] wFetch1).graph.nodes,
      n.isExternal = true →
        n.id ∉ (analysisOf [wFileX, wFileY] wFetch1).graph.leafNodes) :=
  claim1_leafNodes_exactly_internal_inDegree_zero [wFileX, wFileY] wFetch1
    (analysisOf [wFileX, wFileY] wFetch1) rfl "x.cc".data

/-- Witness for C2: the included header carries inDegree one, the count of
edges targeting it, and the edge list is the occurrence list mapped to
edges. -/
theorem claim2_witness :
    (⟨"y.h".data, 1, 10, false, false, "base/y.h".data, 1⟩ : GNode).inDegree =
      (analysisOf [wFileX, wFileY] wFetch1).graph.links.countP
        (fun l => decide (l.target =
          (⟨"y.h".data, 1, 10, false, false, "base/y.h".data, 1⟩ : GNode).id)) ∧
    (analysisOf [wFileX, wFileY] wFetch1).graph.links =
      (occsOf [wFileX, wFileY] wFetch1).map mkLink :=
  claim2_inDegree_counts_edges [wFileX, wFileY] wFetch1
    (analysisOf [wFileX, wFileY] wFetch1) rfl
    ⟨"y.h".data, 1, 10, false, false, "base/y.h".data, 1⟩ (by decide)

/-- Witness for C3: the edge to the external header has both endpoints in
the node list. -/
theorem claim3_witness :
    (∃ n ∈ (analysisOf [wFileX, wFileY] wFetch1).graph.nodes,
      n.id = (⟨"x.cc".data, "memory".data⟩ : Link).source) ∧
    (∃ n ∈ (analysisOf [wFileX, wFileY] wFetch1).graph.nodes,
      n.id = (⟨"x.cc".data, "memory".data⟩ : Link).target) :=
  claim3_edge_endpoints_present [wFileX, wFileY] wFetch1
    (analysisOf [wFileX, wFileY] wFetch1) rfl
    ⟨"x.cc".data, "memory".data⟩ (by decide)

/-- Witness for C10: the external node of the fixture has inDegree at least
one. -/
theorem claim10_witness :
    1 ≤ (⟨"memory".data, 2, 8, true, true, "memory".data, 1⟩ : GNode).inDegree :=
  claim10_external_nodes_included_at_least_once [wFileX, wFileY] wFetch1
    (analysisOf [wFileX, wFileY] wFetch1) rfl
    ⟨"memory".data, 2, 8, true, true, "memory".data, 1⟩ (by decide) rfl

/-- Witness for C9: the self-including header gets a self-loop, a positive
in-degree and no leaf status. -/
theorem claim9_witness :
    (⟨"self.h".data, "self.h".data⟩ : Link) ∈
      (analysisOf [wSelf] wFetchSelf).graph.links ∧
    (∃ n ∈ (analysisOf [wSelf] wFetchSelf).graph.nodes,
      n.id = "self.h".data ∧ n.isExternal = false) ∧
    (∀ n ∈ (analysisOf [wSelf] wFetchSelf).graph.nodes,
      n.id = "self.h".data → 1 ≤ n.inDegree) ∧
    "self.h".data ∉ (analysisOf [wSelf] wFetchSelf).graph.leafNodes :=
  claim9_self_include_self_loop [wSelf] wFetchSelf wSelf
    "#include \"self.h\"".data ⟨"self.h".data, false⟩
    (analysisOf [wSelf] wFetchSelf)
    (by decide) (by decide) rfl (by decide) (by decide) rfl

/-- Witness for C6: with the fetch of the source file failing, the analysis
still returns, keeps the node and gives it no outgoing edges. -/
theorem claim6_witness :
    ∃ res, analyzeDependencies (.ok [wFileX, wFileY]) wFetchFail = some res ∧
      (∃ n ∈ res.graph.nodes, n.id = wFileX.name ∧ n.isExternal = false ∧
        n.inDegree = res.graph.links.countP (fun l => decide (l.target = wFileX.name))) ∧
      (∀ l ∈ res.graph.links, l.source ≠ wFileX.name) :=
  claim6_fetch_failure_degrades_gracefully [wFileX, wFileY] wFetchFail wFileX ⟨500⟩
    (by decide) (by decide) rfl (by decide)

/-- Witness for C4 (amended): the external node of the fixture carries the
attributes of the second, angle-bracket directive. -/
theorem claim4_witness :
    ∃ n ∈ (analysisOf [c4File] c4Fetch).graph.nodes, n.id = "z.h".data ∧
      n.isExternal = true ∧
      n.isSystem = ((("a.cc".data, (⟨"z.h".data, true⟩ : IncludeDirective))).2).isSystem ∧
      n.fullPath = ((("a.cc".data, (⟨"z.h".data, true⟩ : IncludeDirective))).2).path :=
  claim4_external_node_last_directive_wins [c4File] c4Fetch
    (analysisOf [c4File] c4Fetch) rfl "z.h".data (by decide)
    ("a.cc".data, ⟨"z.h".data, true⟩) (by decide)

/-- Witness for C8 (amended): the duplicated listing keeps both occurrences
in sorted order. -/
theorem claim8_witness :
    List.Sorted strLeRel (analysisOf [c8d1, c8d1] wFetch1).subDirs ∧
    (analysisOf [c8d1, c8d1] wFetch1).subDirs.Perm
      (([c8d1, c8d1].filter (fun f => f.type == "dir".data)).map Entry.path) :=
  claim8_subDirs_sorted_duplicates_kept [c8d1, c8d1] wFetch1
    (analysisOf [c8d1, c8d1] wFetch1) rfl

/-- Counterexample for C4 as stated: the first directive for the external
basename is the quoted one with the longer path, yet the single produced
node carries the attributes of the last directive instead. -/
theorem claim4_counterexample :
    parseIncludes "#include \"sub/z.h\"\n#include <z.h>".data =
      [⟨"sub/z.h".data, false⟩, ⟨"z.h".data, true⟩] ∧
    (∀ n ∈ (analysisOf [c4File] c4Fetch).graph.nodes,
      n.id = "z.h".data → n.isSystem = true ∧ n.fullPath = "z.h".data) ∧
    ¬ (∃ n ∈ (analysisOf [c4File] c4Fetch).graph.nodes,
      n.id = "z.h".data ∧ n.isSystem = false ∧ n.fullPath = "sub/z.h".data) :=
  ⟨by decide, by decide, by decide⟩

/-- Counterexample for C5 as stated: an include whose opening delimiter is
a quote but whose closing delimiter is a right angle bracket is reported by
the parser, although it is neither a quoted nor an angle-bracketed path. -/
theorem claim5_counterexample :
    parseIncludes "#include \"vector>".data = [⟨"vector".data, false⟩] ∧
    parseIncludesClaimSpec "#include \"vector>".data = [] ∧
    parseIncludes "#include \"vector>".data ≠
      parseIncludesClaimSpec "#include \"vector>".data :=
  ⟨by decide, by decide, by decide⟩

/-- Counterexample for C7 as stated: a rate-limit class listing failure is
swallowed into the same null per-directory result as any other failure, and
a rate-limit class content failure still yields a graph, so nothing is
propagated to the crawl controller. -/
theorem claim7_counterexample :
    analyzeDependencies (.error ⟨403⟩) (fun _ => .error ⟨403⟩) = none ∧
    analyzeDependencies (.error ⟨403⟩) (fun _ => .error ⟨403⟩) =
      analyzeDependencies (.error ⟨404⟩) (fun _ => .error ⟨404⟩) ∧
    analyzeDependencies (.ok [wFileX]) (fun _ => .error ⟨403⟩) =
      some ⟨⟨[⟨"x.cc".data, 1, 10, false, false, "base/x.cc".data, 0⟩], [],
        ["x.cc".data]⟩, []⟩ :=
  ⟨rfl, rfl, by decide⟩

/-- Counterexample for C8 as stated: a duplicated directory entry in the
listing is returned twice, so the subdirectory list is not duplicate-free. -/
theorem claim8_counterexample :
    ∃ res, analyzeDependencies (.ok [c8d1, c8d1]) (fun _ => .error ⟨404⟩) = some res ∧
      res.subDirs = ["base/sub".data, "base/sub".data] ∧ ¬ res.subDirs.Nodup :=
  ⟨analysisOf [c8d1, c8d1] (fun _ => .error ⟨404⟩), rfl, by decide, by decide⟩

theorem dropLit_sound : ∀ (lit s r : List Char), dropLit lit s = some r → s = lit ++ r := by
  intro lit
  induction lit with
  | nil =>
    intro s r h
    simp only [dropLit, Option.some_inj] at h
    rw [h]
    rfl
  | cons l ls ih =>
    intro s r h
    cases s with
    | nil => exact Option.noConfusion h
    | cons c cs =>
      simp only [dropLit] at h
      by_cases hc : c = l
      · rw [if_pos hc] at h
        rw [List.cons_append, ← ih cs r h, hc]
      · rw [if_neg hc] at h
        exact Option.noConfusion h

theorem takeWhile_append_drop_self (p : Char → Bool) (l : List Char) :
    l.takeWhile p ++ l.drop (l.takeWhile p).length = l := by
  induction l with
  | nil => rfl
  | cons a l ih =>
    by_cases hp : p a = true
    · rw [List.takeWhile_cons_of_pos hp]
      simp only [List.length_cons, List.drop_succ_cons, List.cons_append]
      rw [ih]
    · rw [List.takeWhile_cons_of_neg hp]
      simp

theorem tryMatchInclude_sound (s : List Char) (d : IncludeDirective) (n : Nat)
    (h : tryMatchInclude s = some (d, n)) :
    ∃ ws cl rest,
      s = includeToken ++ ws ++ [if d.isSystem then '<' else '"'] ++
        d.path ++ [cl] ++ rest ∧
      ws ≠ [] ∧ (∀ c ∈ ws, isJsSpace c = true) ∧ d.path ≠ [] ∧
      (∀ c ∈ d.path, c ≠ '"' ∧ c ≠ '>') ∧ (cl = '"' ∨ cl = '>') := by
  unfold tryMatchInclude at h
  cases hlit : dropLit includeToken s with
  | none =>
    rw [hlit] at h
    exact Option.noConfusion h
  | some s1 =>
    rw [hlit] at h
    dsimp only at h
    have hs : s = includeToken ++ s1 := dropLit_sound includeToken s s1 hlit
    by_cases hw : (s1.takeWhile isJsSpace).length = 0
    · rw [if_pos hw] at h
      exact Option.noConfusion h
    · rw [if_neg hw] at h
      cases hdrop1 : s1.drop (s1.takeWhile isJsSpace).length with
      | nil =>
        rw [hdrop1] at h
        exact Option.noConfusion h
      | cons op s3 =>
        rw [hdrop1] at h
        dsimp only at h
        by_cases hop : (op == '"' || op == '<') = true
        · rw [if_pos hop] at h
          by_cases hb : (s3.takeWhile isIncludeBodyChar).length = 0
          · rw [if_pos hb] at h
            exact Option.noConfusion h
          · rw [if_neg hb] at h
            cases hdrop2 : s3.drop (s3.takeWhile isIncludeBodyChar).length with
            | nil =>
              rw [hdrop2] at h
              exact Option.noConfusion h
            | cons cl s5 =>
              rw [hdrop2] at h
              dsimp only at h
              have hpair := Option.some_inj.mp h
              have hd : d = ⟨s3.takeWhile isIncludeBodyChar, op == '<'⟩ :=
                ((Prod.ext_iff.mp hpair).1).symm
              refine ⟨s1.takeWhile isJsSpace, cl, s5, ?_, ?_, ?_, ?_, ?_, ?_⟩
              · have hs1 : s1 = s1.takeWhile isJsSpace ++ (op :: s3) := by
                  rw [← hdrop1]
                  exact (takeWhile_append_drop_self isJsSpace s1).symm
                have hs3 : s3 = s3.takeWhile isIncludeBodyChar ++ (cl :: s5) := by
                  rw [← hdrop2]
                  exact (takeWhile_append_drop_self isIncludeBodyChar s3).symm
                have hopv : (if d.isSystem then '<' else '"') = op := by
                  rw [hd]
                  dsimp only
                  cases hq : (op == '<') with
                  | true =>
                    simp only [hq, if_true]
                    exact (beq_iff_eq.mp hq).symm
                  | false =>
                    simp only [hq, Bool.false_eq_true, if_false]
                    rcases Bool.or_eq_true_iff.mp hop with h1 | h1
                    · exact (beq_iff_eq.mp h1).symm
                    · rw [hq] at h1
                      exact Bool.noConfusion h1
                rw [hs]
                conv_lhs => rw [hs1]
                conv_lhs => rw [hs3]
                rw [hopv, hd]
                simp
              · intro hnil
                rw [hnil] at hw
                exact hw rfl
              · intro c hc
                exact List.mem_takeWhile_imp hc
              · rw [hd]
                dsimp only
                intro hnil
                rw [hnil] at hb
                exact hb rfl
              · rw [hd]
                dsimp only
                intro c hc
                have hbody := List.mem_takeWhile_imp hc
                unfold isIncludeBodyChar at hbody
                constructor
                · intro hq
                  rw [hq] at hbody
                  simp at hbody
                · intro hq
                  rw [hq] at hbody
                  simp at hbody
              · have hcl : isIncludeBodyChar cl = false :=
                  head_drop_takeWhile_not isIncludeBodyChar s3 cl s5 hdrop2
                unfold isIncludeBodyChar at hcl
                by_cases h1 : cl = '"'
                · exact Or.inl h1
                · right
                  by_cases h2 : cl = '>'
                  · exact h2
                  · exfalso
                    rw [(by simp [h1, h2] : (cl == '"' || cl == '>') = false)] at hcl
                    simp at hcl
        · rw [if_neg hop] at h
          exact Option.noConfusion h

theorem scanIncludes_sound (tm : List Char → Option (IncludeDirective × Nat))
    (P : List Char → IncludeDirective → Prop)
    (hm : ∀ s d n, tm s = some (d, n) → P s d)
    (hext2 : ∀ c s d, P s d → P (c :: s) d) :
    ∀ (s : List Char) (skip : Nat) (d : IncludeDirective),
      d ∈ scanIncludes tm s skip → P s d := by
  intro s
  induction s with
  | nil =>
    intro skip d h
    simp [scanIncludes] at h
  | cons c cs ih =>
    intro skip d h
    cases skip with
    | succ k => exact hext2 c cs d (ih k d h)
    | zero =>
      rw [scanIncludes] at h
      cases htm : tm (c :: cs) with
      | none =>
        rw [htm] at h
        exact hext2 c cs d (ih 0 d h)
      | some dn =>
        rw [htm] at h
        cases dn with
        | mk d0 n =>
          rcases List.mem_cons.mp h with rfl | h2
          · exact hm _ _ _ htm
          · exact hext2 c cs d (ih _ d h2)

/-- Every directive the parser reports corresponds to an occurrence, inside
the input text, of the hash-include token followed by nonempty whitespace,
an opening delimiter, the nonempty reported path free of quotes and right
angle brackets, and a closing delimiter that is a quote or a right angle
bracket; the opening delimiter is the angle bracket exactly when
isSystemInclude is true. -/
theorem parseIncludes_sound (content : List Char) (d : IncludeDirective)
    (h : d ∈ parseIncludes content) :
    ∃ pre ws cl rest,
      content = pre ++ includeToken ++ ws ++ [if d.isSystem then '<' else '"'] ++
        d.path ++ [cl] ++ rest ∧
      ws ≠ [] ∧ (∀ c ∈ ws, isJsSpace c = true) ∧ d.path ≠ [] ∧
      (∀ c ∈ d.path, c ≠ '"' ∧ c ≠ '>') ∧ (cl = '"' ∨ cl = '>') := by
  refine scanIncludes_sound tryMatchInclude
    (fun t d => ∃ pre ws cl rest,
      t = pre ++ includeToken ++ ws ++ [if d.isSystem then '<' else '"'] ++
        d.path ++ [cl] ++ rest ∧
      ws ≠ [] ∧ (∀ c ∈ ws, isJsSpace c = true) ∧ d.path ≠ [] ∧
      (∀ c ∈ d.path, c ≠ '"' ∧ c ≠ '>') ∧ (cl = '"' ∨ cl = '>'))
    ?_ ?_ content 0 d h
  · intro s d0 n hs
    obtain ⟨ws, cl, rest, hdec, hws, hws2, hp, hp2, hcl⟩ :=
      tryMatchInclude_sound s d0 n hs
    exact ⟨[], ws, cl, rest, by simpa using hdec, hws, hws2, hp, hp2, hcl⟩
  · rintro c s d0 ⟨pre, ws, cl, rest, hdec, hws, hws2, hp, hp2, hcl⟩
    exact ⟨c :: pre, ws, cl, rest, by rw [hdec]; rfl, hws, hws2, hp, hp2, hcl⟩

end ChromiumIncludes
